import Mathlib

/-!
# A sharded lookup table (`src/main.cpp`)

Sequential model of `threadsafe_lookup_table<Key, Value, hash>`.

* A `std::list<std::pair<Key, Value>>` is a `List (Key × Value)`; a list iterator is the
  position it points at, and `end()` is the length of the list.
* `std::vector<std::unique_ptr<bucket_type>>` is a `List` of buckets.
* The member `get_map` is not part of the model. It reads `buckets[i]->mutex` and
  `buckets[i]->data`, which are private members of the nested class `bucket_type`, from the
  enclosing class, and `bucket_type` declares no friend: the member is ill-formed whenever
  it is instantiated, and no call of it yields a value. (The program compiles because
  `main` never calls it.)
* The mutexes are not part of the model: every operation runs alone, start to end.
* `hash_(key) % buckets.size()` with `buckets.size() == 0` is undefined in C++; the model
  reports it as `Fault.modulo_by_zero`.
-/

set_option linter.unusedSectionVars false

namespace TLT

/-- Faults of the model. The source has no `throw`; the one fault is the undefined
    remainder by zero in `get_bucket`. -/
inductive Fault where
  | modulo_by_zero
deriving DecidableEq, Repr

/-- The algorithm `std::find_if` on a list: the position of the first element that satisfies
    `p`, or the length of the list (the `end()` iterator) when there is none. -/
def find_if {α : Type} (p : α → Bool) : List α → Nat
  | [] => 0
  | x :: xs => if p x then 0 else find_if p xs + 1

/-- The class `bucket_type`: the entry list `data` (the mutex is not modelled). -/
structure bucket_type (Key Value : Type) where
  data : List (Key × Value)
deriving DecidableEq, Repr

namespace bucket_type

variable {Key Value : Type} [DecidableEq Key]

/-- The keys of a bucket, one per entry, in list order. -/
def keys (b : bucket_type Key Value) : List Key := b.data.map Prod.fst

/-- Member `for_entry_key`: `std::find_if` with the predicate `x.first == key`. -/
def for_entry_key (b : bucket_type Key Value) (key : Key) : Nat :=
  find_if (fun x => decide (x.1 = key)) b.data

/-- Member `value_for` of the bucket: `it == data.end() ? default_value : it->second`. -/
def value_for (b : bucket_type Key Value) (key : Key) (default_value : Value) : Value :=
  let it := b.for_entry_key key
  if it = b.data.length then default_value
  else
    match b.data[it]? with
    | some x => x.2
    | none => default_value

/-- Member `add_or_update` of the bucket: `emplace_back` when the search reaches `end()`,
    else `it->second = value`. -/
def add_or_update (b : bucket_type Key Value) (key : Key) (value : Value) :
    bucket_type Key Value :=
  let it := b.for_entry_key key
  if it = b.data.length then { data := b.data ++ [(key, value)] }
  else { data := b.data.modify (fun x => (x.1, value)) it }

/-- Member `remove` of the bucket: `data.erase(it)` when the search did not reach `end()`. -/
def remove (b : bucket_type Key Value) (key : Key) : bucket_type Key Value :=
  let it := b.for_entry_key key
  if it ≠ b.data.length then { data := b.data.eraseIdx it } else b

end bucket_type

/-- The class `threadsafe_lookup_table`: the vector `buckets` and the hash object `hash_`
    (a function to `size_t`, here to `Nat`). -/
structure threadsafe_lookup_table (Key Value : Type) where
  buckets : List (bucket_type Key Value)
  hash_ : Key → Nat

/-- Modelled from the spec: the default integer hash (`std::hash<int>`, library code that is
    not in the repository) is the identity, converted to `size_t` (64 bits). -/
def std_hash_int (k : Int) : Nat := (k % 2 ^ 64).toNat

namespace threadsafe_lookup_table

variable {Key Value : Type}

/-- The constructor: `bucket_num` buckets, each reset to a new empty `bucket_type`. Its body
    has no failing path, so the result is always `Except.ok`. -/
def construct (bucket_num : Nat) (hasher_ : Key → Nat) :
    Except Fault (threadsafe_lookup_table Key Value) :=
  .ok { buckets := List.replicate bucket_num { data := [] }, hash_ := hasher_ }

/-- The constructor called without `bucket_num`: the default argument is 19. -/
def construct_default (hasher_ : Key → Nat) :
    Except Fault (threadsafe_lookup_table Key Value) :=
  construct 19 hasher_

/-- Member `get_bucket`: the index `hash_(key) % buckets.size()`, which selects the bucket
    the caller works on. The remainder by zero is a fault. -/
def get_bucket (t : threadsafe_lookup_table Key Value) (key : Key) :
    Except Fault (Fin t.buckets.length) :=
  if h : 0 < t.buckets.length then
    .ok ⟨t.hash_ key % t.buckets.length, Nat.mod_lt _ h⟩
  else .error .modulo_by_zero

variable [DecidableEq Key]

/-- Member `value_for` of the table: `get_bucket(key).value_for(key, default_value)`. -/
def value_for (t : threadsafe_lookup_table Key Value) (key : Key) (default_value : Value) :
    Except Fault Value :=
  match t.get_bucket key with
  | .ok i => .ok ((t.buckets.get i).value_for key default_value)
  | .error e => .error e

/-- Member `add_or_update` of the table: `get_bucket(key).add_or_update(key, value)`. -/
def add_or_update (t : threadsafe_lookup_table Key Value) (key : Key) (value : Value) :
    Except Fault (threadsafe_lookup_table Key Value) :=
  match t.get_bucket key with
  | .ok i =>
    .ok { t with buckets := t.buckets.set i ((t.buckets.get i).add_or_update key value) }
  | .error e => .error e

/-- Member `remove` of the table: `get_bucket(key).remove(key)`. -/
def remove (t : threadsafe_lookup_table Key Value) (key : Key) :
    Except Fault (threadsafe_lookup_table Key Value) :=
  match t.get_bucket key with
  | .ok i => .ok { t with buckets := t.buckets.set i ((t.buckets.get i).remove key) }
  | .error e => .error e

end threadsafe_lookup_table

/-! ## Sequences of mutations and the predicates of the specification -/

/-- A mutation of the table: one call of `add_or_update` or of `remove`. -/
inductive Op (Key Value : Type) where
  | add_or_update (key : Key) (value : Value)
  | remove (key : Key)
deriving DecidableEq, Repr

variable {Key Value : Type}

/-- The key a mutation is called with. -/
def Op.key : Op Key Value → Key
  | .add_or_update key _ => key
  | .remove key => key

/-- One mutation applied to a table. -/
def step [DecidableEq Key] (t : threadsafe_lookup_table Key Value) :
    Op Key Value → Except Fault (threadsafe_lookup_table Key Value)
  | .add_or_update key value => t.add_or_update key value
  | .remove key => t.remove key

/-- A sequence of mutations applied from left to right; the first fault stops it. -/
def run [DecidableEq Key] (t : threadsafe_lookup_table Key Value) :
    List (Op Key Value) → Except Fault (threadsafe_lookup_table Key Value)
  | [] => .ok t
  | op :: ops =>
    match step t op with
    | .ok t' => run t' ops
    | .error e => .error e

/-- The state `t` is what a table constructed with `n` buckets and hash `hasher` becomes
    after the mutations `ops`. -/
def ReachedBy [DecidableEq Key] (n : Nat) (hasher : Key → Nat) (ops : List (Op Key Value))
    (t : threadsafe_lookup_table Key Value) : Prop :=
  ∃ t0, threadsafe_lookup_table.construct n hasher = .ok t0 ∧ run t0 ops = .ok t

/-- The state `t` is reachable from a newly constructed table with a positive number of
    buckets by calls of `add_or_update` and `remove`. -/
def Reachable [DecidableEq Key] (t : threadsafe_lookup_table Key Value) : Prop :=
  ∃ n hasher ops, 0 < n ∧ ReachedBy n hasher ops t

/-- All entries of the table: the entries of bucket 0, then those of bucket 1, and so on. -/
def all_entries (t : threadsafe_lookup_table Key Value) : List (Key × Value) :=
  t.buckets.flatMap (fun b => b.data)

/-- The keys stored in the table, one per entry. -/
def stored_keys (t : threadsafe_lookup_table Key Value) : List Key :=
  (all_entries t).map Prod.fst

/-- The key `k` is stored in the table: some bucket has an entry with that key. -/
def Stored (t : threadsafe_lookup_table Key Value) (k : Key) : Prop :=
  k ∈ stored_keys t

/-- Uniqueness: every key occurs in at most one entry across all buckets. -/
def Unique (t : threadsafe_lookup_table Key Value) : Prop :=
  (stored_keys t).Nodup

/-- Routing: every entry of bucket `i` has a key whose index `hash_(key) % buckets.size()`
    is `i`. -/
def Routed (t : threadsafe_lookup_table Key Value) : Prop :=
  ∀ p ∈ t.buckets.enum, ∀ e ∈ p.2.data, t.hash_ e.1 % t.buckets.length = p.1

instance instDecidableStored [DecidableEq Key] (t : threadsafe_lookup_table Key Value)
    (k : Key) : Decidable (Stored t k) := by
  unfold Stored
  infer_instance

instance instDecidableUnique [DecidableEq Key] (t : threadsafe_lookup_table Key Value) :
    Decidable (Unique t) := by
  unfold Unique
  infer_instance

instance instDecidableRouted (t : threadsafe_lookup_table Key Value) :
    Decidable (Routed t) := by
  unfold Routed
  infer_instance

/-! ## Concrete tables used to instantiate the theorems -/

/-- A hash on natural-number keys: the key itself. -/
def sample_hash (k : Nat) : Nat := k

/-- Three insertions into a table with two buckets. -/
def sample_ops : List (Op Nat Nat) :=
  [.add_or_update 1 10, .add_or_update 2 20, .add_or_update 3 30]

/-- The table with two buckets that `sample_ops` produces. -/
def sample_table : threadsafe_lookup_table Nat Nat :=
  { buckets := [{ data := [(2, 20)] }, { data := [(1, 10), (3, 30)] }], hash_ := sample_hash }

/-! ## Buckets: the operations by recursion on the entry list -/

namespace bucket_type

variable {Key Value : Type} [DecidableEq Key]

theorem value_for_nil (k : Key) (d : Value) :
    value_for { data := [] } k d = d := by
  simp [value_for, for_entry_key, find_if]

theorem value_for_cons (a : Key) (x : Value) (xs : List (Key × Value)) (k : Key) (d : Value) :
    value_for { data := (a, x) :: xs } k d
      = if a = k then x else value_for { data := xs } k d := by
  by_cases h : a = k
  · simp [value_for, for_entry_key, find_if, h]
  · simp [value_for, for_entry_key, find_if, h]

theorem add_or_update_nil (k : Key) (v : Value) :
    add_or_update { data := [] } k v = { data := [(k, v)] } := by
  simp [add_or_update, for_entry_key, find_if]

theorem add_or_update_cons (a : Key) (x : Value) (xs : List (Key × Value)) (k : Key)
    (v : Value) :
    add_or_update { data := (a, x) :: xs } k v
      = if a = k then { data := (a, v) :: xs }
        else { data := (a, x) :: (add_or_update { data := xs } k v).data } := by
  by_cases h : a = k
  · simp [add_or_update, for_entry_key, find_if, h]
  · by_cases e : find_if (fun y : Key × Value => decide (y.1 = k)) xs = xs.length
    · simp [add_or_update, for_entry_key, find_if, h, e]
    · simp [add_or_update, for_entry_key, find_if, h, e]

theorem remove_nil (k : Key) :
    remove ({ data := [] } : bucket_type Key Value) k = { data := [] } := by
  simp [remove, for_entry_key, find_if]

theorem remove_cons (a : Key) (x : Value) (xs : List (Key × Value)) (k : Key) :
    remove { data := (a, x) :: xs } k
      = if a = k then { data := xs }
        else { data := (a, x) :: (remove { data := xs } k).data } := by
  by_cases h : a = k
  · simp [remove, for_entry_key, find_if, h]
  · by_cases e : find_if (fun y : Key × Value => decide (y.1 = k)) xs = xs.length
    · simp [remove, for_entry_key, find_if, h, e]
    · simp [remove, for_entry_key, find_if, h, e]


theorem keys_add_or_update (b : bucket_type Key Value) (k : Key) (v : Value) :
    (b.add_or_update k v).keys = if k ∈ b.keys then b.keys else b.keys ++ [k] := by
  obtain ⟨l⟩ := b
  induction l with
  | nil => simp [add_or_update_nil, keys]
  | cons e xs ih =>
    obtain ⟨a, x⟩ := e
    rw [add_or_update_cons]
    by_cases h : a = k
    · simp [keys, h]
    · have hk : ¬ k = a := fun c => h c.symm
      simp only [keys, List.map_cons, List.mem_cons, hk, false_or, h, if_false] at ih ⊢
      rw [ih]
      split <;> simp

theorem value_for_add_or_update_same (b : bucket_type Key Value) (k : Key) (v d : Value) :
    (b.add_or_update k v).value_for k d = v := by
  obtain ⟨l⟩ := b
  induction l with
  | nil => simp [add_or_update_nil, value_for_cons]
  | cons e xs ih =>
    obtain ⟨a, x⟩ := e
    rw [add_or_update_cons]
    by_cases h : a = k
    · simp [h, value_for_cons]
    · simp [h, value_for_cons, ih]

theorem value_for_of_not_mem (b : bucket_type Key Value) (k : Key) (d : Value)
    (h : k ∉ b.keys) : b.value_for k d = d := by
  obtain ⟨l⟩ := b
  induction l with
  | nil => exact value_for_nil k d
  | cons e xs ih =>
    obtain ⟨a, x⟩ := e
    simp only [keys, List.map_cons, List.mem_cons, not_or] at h ih
    rw [value_for_cons, if_neg (fun c => h.1 c.symm)]
    exact ih h.2

theorem remove_of_not_mem (b : bucket_type Key Value) (k : Key) (h : k ∉ b.keys) :
    b.remove k = b := by
  obtain ⟨l⟩ := b
  induction l with
  | nil => exact remove_nil k
  | cons e xs ih =>
    obtain ⟨a, x⟩ := e
    simp only [keys, List.map_cons, List.mem_cons, not_or] at h ih
    rw [remove_cons, if_neg (fun c => h.1 c.symm), ih h.2]

theorem keys_remove (b : bucket_type Key Value) (k : Key) :
    (b.remove k).keys = b.keys.erase k := by
  obtain ⟨l⟩ := b
  induction l with
  | nil => simp [remove_nil, keys]
  | cons e xs ih =>
    obtain ⟨a, x⟩ := e
    rw [remove_cons]
    by_cases h : a = k
    · simp [keys, h]
    · simp only [keys, List.map_cons, h, if_false] at ih ⊢
      rw [ih, List.erase_cons_tail]
      simpa using h

theorem not_mem_keys_remove (b : bucket_type Key Value) (k : Key) (h : b.keys.Nodup) :
    k ∉ (b.remove k).keys := by
  rw [keys_remove]
  exact fun c => (List.Nodup.mem_erase_iff h).1 c |>.1 rfl

theorem value_for_remove_same (b : bucket_type Key Value) (k : Key) (d : Value)
    (h : b.keys.Nodup) : (b.remove k).value_for k d = d :=
  value_for_of_not_mem _ _ _ (not_mem_keys_remove b k h)

theorem keys_nodup_add_or_update (b : bucket_type Key Value) (k : Key) (v : Value)
    (h : b.keys.Nodup) : (b.add_or_update k v).keys.Nodup := by
  rw [keys_add_or_update]
  split
  · exact h
  · rename_i hk
    exact List.Nodup.append h (List.nodup_singleton k) (by simpa using hk)

theorem keys_nodup_remove (b : bucket_type Key Value) (k : Key) (h : b.keys.Nodup) :
    (b.remove k).keys.Nodup := by
  rw [keys_remove]
  exact h.erase k

end bucket_type

namespace threadsafe_lookup_table

variable {Key Value : Type} [DecidableEq Key]

theorem get_bucket_ok (t : threadsafe_lookup_table Key Value) (k : Key)
    (h : 0 < t.buckets.length) :
    t.get_bucket k = .ok ⟨t.hash_ k % t.buckets.length, Nat.mod_lt _ h⟩ := by
  simp [get_bucket, h]

theorem value_for_ok (t : threadsafe_lookup_table Key Value) (k : Key) (d : Value)
    (h : 0 < t.buckets.length) :
    ∃ b, t.buckets[t.hash_ k % t.buckets.length]? = some b ∧
      t.value_for k d = .ok (b.value_for k d) := by
  have hi : t.hash_ k % t.buckets.length < t.buckets.length := Nat.mod_lt _ h
  refine ⟨t.buckets[t.hash_ k % t.buckets.length], ?_, ?_⟩
  · simp [hi]
  · simp [value_for, get_bucket_ok t k h]

theorem add_or_update_ok (t : threadsafe_lookup_table Key Value) (k : Key) (v : Value)
    (h : 0 < t.buckets.length) :
    ∃ b, t.buckets[t.hash_ k % t.buckets.length]? = some b ∧
      t.add_or_update k v = .ok
        { buckets := t.buckets.set (t.hash_ k % t.buckets.length) (b.add_or_update k v),
          hash_ := t.hash_ } := by
  have hi : t.hash_ k % t.buckets.length < t.buckets.length := Nat.mod_lt _ h
  refine ⟨t.buckets[t.hash_ k % t.buckets.length], ?_, ?_⟩
  · simp [hi]
  · simp [add_or_update, get_bucket_ok t k h]

theorem remove_ok (t : threadsafe_lookup_table Key Value) (k : Key)
    (h : 0 < t.buckets.length) :
    ∃ b, t.buckets[t.hash_ k % t.buckets.length]? = some b ∧
      t.remove k = .ok
        { buckets := t.buckets.set (t.hash_ k % t.buckets.length) (b.remove k),
          hash_ := t.hash_ } := by
  have hi : t.hash_ k % t.buckets.length < t.buckets.length := Nat.mod_lt _ h
  refine ⟨t.buckets[t.hash_ k % t.buckets.length], ?_, ?_⟩
  · simp [hi]
  · simp [remove, get_bucket_ok t k h]

/-- A lookup in a table whose routed bucket has just been replaced reads the new bucket. -/
theorem value_for_set (t : threadsafe_lookup_table Key Value) (k : Key) (d : Value)
    (b : bucket_type Key Value) (h : 0 < t.buckets.length) :
    value_for { buckets := t.buckets.set (t.hash_ k % t.buckets.length) b, hash_ := t.hash_ }
      k d = .ok (b.value_for k d) := by
  have hi : t.hash_ k % t.buckets.length < t.buckets.length := Nat.mod_lt _ h
  obtain ⟨b', hb', e⟩ := value_for_ok
    { buckets := t.buckets.set (t.hash_ k % t.buckets.length) b, hash_ := t.hash_ } k d
    (by simpa using h)
  simp only [List.length_set] at hb' e
  rw [List.getElem?_set] at hb'
  simp only [hi, if_true] at hb'
  rw [e]
  cases hb'
  rfl

end threadsafe_lookup_table

variable {Key Value : Type}

/-! ## Stored keys, routing and uniqueness -/

theorem stored_keys_eq (t : threadsafe_lookup_table Key Value) :
    stored_keys t = t.buckets.flatMap bucket_type.keys := by
  simp only [stored_keys, all_entries, List.map_flatMap]
  rfl

theorem flatMap_keys_split (bs : List (bucket_type Key Value)) (i : Nat)
    (b b' : bucket_type Key Value) (h : bs[i]? = some b) :
    bs.flatMap bucket_type.keys
        = (bs.take i).flatMap bucket_type.keys
          ++ (b.keys ++ (bs.drop (i + 1)).flatMap bucket_type.keys) ∧
    (bs.set i b').flatMap bucket_type.keys
        = (bs.take i).flatMap bucket_type.keys
          ++ (b'.keys ++ (bs.drop (i + 1)).flatMap bucket_type.keys) := by
  induction bs generalizing i with
  | nil => simp at h
  | cons x xs ih =>
    cases i with
    | zero =>
      simp only [List.getElem?_cons_zero, Option.some.injEq] at h
      subst h
      simp
    | succ j =>
      simp only [List.getElem?_cons_succ] at h
      obtain ⟨h1, h2⟩ := ih j h
      constructor
      · simp only [List.flatMap_cons, List.take_succ_cons, List.drop_succ_cons,
          List.append_assoc]
        rw [h1]
      · simp only [List.set_cons_succ, List.flatMap_cons, List.take_succ_cons,
          List.drop_succ_cons, List.append_assoc]
        rw [h2]

theorem mem_stored_keys (t : threadsafe_lookup_table Key Value) (k : Key) :
    k ∈ stored_keys t ↔
      ∃ (i : Nat) (b : bucket_type Key Value), t.buckets[i]? = some b ∧ k ∈ b.keys := by
  rw [stored_keys_eq, List.mem_flatMap]
  constructor
  · rintro ⟨b, hb, hk⟩
    obtain ⟨i, hi⟩ := List.mem_iff_getElem?.1 hb
    exact ⟨i, b, hi, hk⟩
  · rintro ⟨i, b, hi, hk⟩
    exact ⟨b, List.mem_iff_getElem?.2 ⟨i, hi⟩, hk⟩

theorem routed_keys (t : threadsafe_lookup_table Key Value) :
    Routed t ↔ ∀ (i : Nat) (b : bucket_type Key Value), t.buckets[i]? = some b →
      ∀ k ∈ b.keys, t.hash_ k % t.buckets.length = i := by
  constructor
  · intro h i b hb k hk
    obtain ⟨e, he, rfl⟩ := List.mem_map.1 hk
    exact h (i, b) (List.mem_enum_iff_getElem?.2 hb) e he
  · intro h p hp e he
    exact h p.1 p.2 (List.mem_enum_iff_getElem?.1 hp) e.1 (List.mem_map.2 ⟨e, he, rfl⟩)

/-- Under routing, a key is stored in the table exactly when the bucket it is routed to
    has it. -/
theorem stored_iff_routed_bucket (t : threadsafe_lookup_table Key Value) (k : Key)
    (b : bucket_type Key Value) (hr : Routed t)
    (hb : t.buckets[t.hash_ k % t.buckets.length]? = some b) :
    k ∈ stored_keys t ↔ k ∈ b.keys := by
  rw [mem_stored_keys]
  constructor
  · rintro ⟨i, b', hi, hk⟩
    have := (routed_keys t).1 hr i b' hi k hk
    subst this
    rw [hb] at hi
    cases hi
    exact hk
  · intro hk
    exact ⟨_, b, hb, hk⟩

theorem unique_bucket (t : threadsafe_lookup_table Key Value) (i : Nat)
    (b : bucket_type Key Value) (hu : Unique t) (hb : t.buckets[i]? = some b) :
    b.keys.Nodup := by
  unfold Unique at hu
  rw [stored_keys_eq] at hu
  exact (List.nodup_flatMap.1 hu).1 b (List.mem_iff_getElem?.2 ⟨i, hb⟩)

/-- Replacing a bucket by one whose keys are among the old keys keeps routing. -/
theorem routed_set (t : threadsafe_lookup_table Key Value) (i : Nat)
    (b b' : bucket_type Key Value) (hr : Routed t) (hb : t.buckets[i]? = some b)
    (hk : ∀ k ∈ b'.keys, k ∈ b.keys ∨ t.hash_ k % t.buckets.length = i) :
    Routed { buckets := t.buckets.set i b', hash_ := t.hash_ } := by
  rw [routed_keys] at hr ⊢
  intro j c hc k hkc
  simp only [List.length_set] at hc ⊢
  rw [List.getElem?_set] at hc
  by_cases hij : i = j
  · subst hij
    have hlt : i < t.buckets.length := by
      by_contra hn
      rw [List.getElem?_eq_none (by omega)] at hb
      cases hb
    simp only [hlt, if_true, Option.some.injEq] at hc
    subst hc
    rcases hk k hkc with h1 | h1
    · exact hr i b hb k h1
    · exact h1
  · simp only [hij, if_false] at hc
    exact hr j c hc k hkc

/-- Replacing a bucket by one whose key list is a sublist of the old one keeps uniqueness. -/
theorem unique_set_sublist (t : threadsafe_lookup_table Key Value) (i : Nat)
    (b b' : bucket_type Key Value) (hu : Unique t) (hb : t.buckets[i]? = some b)
    (hs : b'.keys.Sublist b.keys) :
    Unique { buckets := t.buckets.set i b', hash_ := t.hash_ } := by
  unfold Unique at hu ⊢
  rw [stored_keys_eq] at hu ⊢
  obtain ⟨h1, h2⟩ := flatMap_keys_split t.buckets i b b' hb
  simp only
  rw [h1] at hu
  rw [h2]
  exact List.Nodup.sublist
    (List.Sublist.append (List.Sublist.refl _)
      (List.Sublist.append hs (List.Sublist.refl _))) hu

/-- Appending a key that the table does not store to one bucket keeps uniqueness. -/
theorem unique_set_append (t : threadsafe_lookup_table Key Value) (i : Nat)
    (b b' : bucket_type Key Value) (k : Key) (hu : Unique t) (hb : t.buckets[i]? = some b)
    (hk : k ∉ stored_keys t) (hs : b'.keys = b.keys ++ [k]) :
    Unique { buckets := t.buckets.set i b', hash_ := t.hash_ } := by
  unfold Unique at hu ⊢
  rw [stored_keys_eq] at hu hk ⊢
  obtain ⟨h1, h2⟩ := flatMap_keys_split t.buckets i b b' hb
  simp only
  rw [h1] at hu hk
  rw [h2, hs]
  have hp : List.Perm
      ((t.buckets.take i).flatMap bucket_type.keys
        ++ ((b.keys ++ [k]) ++ (t.buckets.drop (i + 1)).flatMap bucket_type.keys))
      (k :: ((t.buckets.take i).flatMap bucket_type.keys
        ++ (b.keys ++ (t.buckets.drop (i + 1)).flatMap bucket_type.keys))) := by
    rw [List.append_assoc b.keys, List.singleton_append, ← List.append_assoc]
    refine List.Perm.trans List.perm_middle ?_
    rw [List.append_assoc]
  rw [hp.nodup_iff, List.nodup_cons]
  exact ⟨hk, hu⟩

variable {Key Value : Type} [DecidableEq Key]

/-! ## The invariants along sequences of mutations -/

theorem mem_stored_keys_set (t : threadsafe_lookup_table Key Value) (i : Nat)
    (b b' : bucket_type Key Value) (hb : t.buckets[i]? = some b) (k : Key)
    (hk : k ∈ stored_keys { buckets := t.buckets.set i b', hash_ := t.hash_ }) :
    k ∈ stored_keys t ∨ k ∈ b'.keys := by
  rw [stored_keys_eq] at hk ⊢
  obtain ⟨h1, h2⟩ := flatMap_keys_split t.buckets i b b' hb
  simp only at hk
  rw [h2] at hk
  rw [h1]
  simp only [List.mem_append] at hk ⊢
  tauto

theorem add_or_update_routed (t : threadsafe_lookup_table Key Value) (k : Key) (v : Value)
    (hn : 0 < t.buckets.length) (hr : Routed t) :
    ∃ t', t.add_or_update k v = .ok t' ∧ t'.buckets.length = t.buckets.length ∧
      t'.hash_ = t.hash_ ∧ Routed t' := by
  obtain ⟨b, hb, e⟩ := t.add_or_update_ok k v hn
  refine ⟨_, e, by simp, rfl, ?_⟩
  apply routed_set t _ b _ hr hb
  intro k' hk'
  rw [bucket_type.keys_add_or_update] at hk'
  split at hk'
  · exact Or.inl hk'
  · rcases List.mem_append.1 hk' with h | h
    · exact Or.inl h
    · rw [List.mem_singleton.1 h]
      exact Or.inr rfl

theorem remove_routed (t : threadsafe_lookup_table Key Value) (k : Key)
    (hn : 0 < t.buckets.length) (hr : Routed t) :
    ∃ t', t.remove k = .ok t' ∧ t'.buckets.length = t.buckets.length ∧
      t'.hash_ = t.hash_ ∧ Routed t' := by
  obtain ⟨b, hb, e⟩ := t.remove_ok k hn
  refine ⟨_, e, by simp, rfl, ?_⟩
  apply routed_set t _ b _ hr hb
  intro k' hk'
  rw [bucket_type.keys_remove] at hk'
  exact Or.inl (List.mem_of_mem_erase hk')

theorem add_or_update_unique (t : threadsafe_lookup_table Key Value) (k : Key) (v : Value)
    (hn : 0 < t.buckets.length) (hr : Routed t) (hu : Unique t) :
    ∃ t', t.add_or_update k v = .ok t' ∧ Unique t' := by
  obtain ⟨b, hb, e⟩ := t.add_or_update_ok k v hn
  refine ⟨_, e, ?_⟩
  by_cases hk : k ∈ b.keys
  · apply unique_set_sublist t _ b _ hu hb
    rw [bucket_type.keys_add_or_update, if_pos hk]
  · apply unique_set_append t _ b _ k hu hb
    · rw [stored_iff_routed_bucket t k b hr hb]
      exact hk
    · rw [bucket_type.keys_add_or_update, if_neg hk]

theorem remove_unique (t : threadsafe_lookup_table Key Value) (k : Key)
    (hn : 0 < t.buckets.length) (hu : Unique t) :
    ∃ t', t.remove k = .ok t' ∧ Unique t' := by
  obtain ⟨b, hb, e⟩ := t.remove_ok k hn
  refine ⟨_, e, ?_⟩
  apply unique_set_sublist t _ b _ hu hb
  rw [bucket_type.keys_remove]
  exact List.erase_sublist k b.keys

theorem construct_eq (n : Nat) (hasher : Key → Nat) (t : threadsafe_lookup_table Key Value)
    (h : threadsafe_lookup_table.construct n hasher = .ok t) :
    t = { buckets := List.replicate n { data := [] }, hash_ := hasher } := by
  simp only [threadsafe_lookup_table.construct, Except.ok.injEq] at h
  exact h.symm

theorem stored_keys_construct (n : Nat) (hasher : Key → Nat) :
    stored_keys ({ buckets := List.replicate n { data := [] }, hash_ := hasher } :
      threadsafe_lookup_table Key Value) = [] := by
  rw [stored_keys_eq]
  induction n with
  | zero => rfl
  | succ m ih =>
    simp only [List.replicate_succ, List.flatMap_cons] at ih ⊢
    rw [ih]
    rfl

theorem routed_construct (n : Nat) (hasher : Key → Nat) :
    Routed ({ buckets := List.replicate n { data := [] }, hash_ := hasher } :
      threadsafe_lookup_table Key Value) := by
  intro p hp e he
  have hm : p.2 ∈ List.replicate n ({ data := [] } : bucket_type Key Value) :=
    List.snd_mem_of_mem_enum hp
  rw [(List.mem_replicate.1 hm).2] at he
  cases he

/-- What every mutation keeps: a positive bucket count, routing and uniqueness. -/
theorem step_invariant (t : threadsafe_lookup_table Key Value) (op : Op Key Value)
    (hn : 0 < t.buckets.length) (hr : Routed t) (hu : Unique t) :
    ∃ t', step t op = .ok t' ∧ t'.buckets.length = t.buckets.length ∧
      t'.hash_ = t.hash_ ∧ Routed t' ∧ Unique t' := by
  cases op with
  | add_or_update k v =>
    obtain ⟨t1, e1, hl, hh, hr1⟩ := add_or_update_routed t k v hn hr
    obtain ⟨t2, e2, hu2⟩ := add_or_update_unique t k v hn hr hu
    rw [e1] at e2
    cases e2
    exact ⟨t1, e1, hl, hh, hr1, hu2⟩
  | remove k =>
    obtain ⟨t1, e1, hl, hh, hr1⟩ := remove_routed t k hn hr
    obtain ⟨t2, e2, hu2⟩ := remove_unique t k hn hu
    rw [e1] at e2
    cases e2
    exact ⟨t1, e1, hl, hh, hr1, hu2⟩

theorem run_invariant (ops : List (Op Key Value)) (t : threadsafe_lookup_table Key Value)
    (hn : 0 < t.buckets.length) (hr : Routed t) (hu : Unique t) :
    ∃ t', run t ops = .ok t' ∧ t'.buckets.length = t.buckets.length ∧
      t'.hash_ = t.hash_ ∧ Routed t' ∧ Unique t' := by
  induction ops generalizing t with
  | nil => exact ⟨t, rfl, rfl, rfl, hr, hu⟩
  | cons op ops ih =>
    obtain ⟨t1, e1, hl1, hh1, hr1, hu1⟩ := step_invariant t op hn hr hu
    obtain ⟨t2, e2, hl2, hh2, hr2, hu2⟩ := ih t1 (by omega) hr1 hu1
    refine ⟨t2, ?_, by omega, by rw [hh2, hh1], hr2, hu2⟩
    simp only [run, e1]
    exact e2

theorem reachedBy_invariant (n : Nat) (hasher : Key → Nat) (ops : List (Op Key Value))
    (t : threadsafe_lookup_table Key Value) (hn : 0 < n) (h : ReachedBy n hasher ops t) :
    t.buckets.length = n ∧ t.hash_ = hasher ∧ Routed t ∧ Unique t := by
  obtain ⟨t0, h0, hrun⟩ := h
  have e0 := construct_eq n hasher t0 h0
  subst e0
  obtain ⟨t', e, hl, hh, hr, hu⟩ := run_invariant ops
    ({ buckets := List.replicate n { data := [] }, hash_ := hasher } :
      threadsafe_lookup_table Key Value)
    (by simpa using hn) (routed_construct n hasher)
    (by unfold Unique; rw [stored_keys_construct]; exact List.nodup_nil)
  rw [hrun] at e
  cases e
  exact ⟨by simpa using hl, hh, hr, hu⟩

theorem reachable_invariant (t : threadsafe_lookup_table Key Value) (h : Reachable t) :
    0 < t.buckets.length ∧ Routed t ∧ Unique t := by
  obtain ⟨n, hasher, ops, hn, hr⟩ := h
  obtain ⟨h1, _, h3, h4⟩ := reachedBy_invariant n hasher ops t hn hr
  exact ⟨by omega, h3, h4⟩

/-! ## Further facts about single mutations -/

theorem set_of_getElem? {α : Type} (l : List α) (i : Nat) (a : α) (h : l[i]? = some a) :
    l.set i a = l := by
  induction l generalizing i with
  | nil => rfl
  | cons x xs ih =>
    cases i with
    | zero =>
      simp only [List.getElem?_cons_zero, Option.some.injEq] at h
      rw [h, List.set_cons_zero]
    | succ j =>
      simp only [List.getElem?_cons_succ] at h
      rw [List.set_cons_succ, ih j h]

/-- A key stored after a mutation was stored before it, or is the key the mutation adds. -/
theorem step_stored (t t' : threadsafe_lookup_table Key Value) (op : Op Key Value)
    (hn : 0 < t.buckets.length) (hs : step t op = .ok t') (k : Key)
    (hk : k ∈ stored_keys t') : k ∈ stored_keys t ∨ ∃ v, op = .add_or_update k v := by
  cases op with
  | add_or_update k1 v =>
    obtain ⟨b, hb, e⟩ := t.add_or_update_ok k1 v hn
    simp only [step] at hs
    rw [e] at hs
    cases hs
    rcases mem_stored_keys_set t _ b _ hb k hk with h | h
    · exact Or.inl h
    · rw [bucket_type.keys_add_or_update] at h
      split at h
      · exact Or.inl ((mem_stored_keys t k).2 ⟨_, b, hb, h⟩)
      · rcases List.mem_append.1 h with h1 | h1
        · exact Or.inl ((mem_stored_keys t k).2 ⟨_, b, hb, h1⟩)
        · rw [List.mem_singleton.1 h1]
          exact Or.inr ⟨v, rfl⟩
  | remove k1 =>
    obtain ⟨b, hb, e⟩ := t.remove_ok k1 hn
    simp only [step] at hs
    rw [e] at hs
    cases hs
    rcases mem_stored_keys_set t _ b _ hb k hk with h | h
    · exact Or.inl h
    · rw [bucket_type.keys_remove] at h
      exact Or.inl ((mem_stored_keys t k).2 ⟨_, b, hb, List.mem_of_mem_erase h⟩)

/-- A key that no mutation of the sequence adds, and that is not stored before the sequence,
    is not stored after it. -/
theorem run_not_stored (ops : List (Op Key Value)) (t t' : threadsafe_lookup_table Key Value)
    (hn : 0 < t.buckets.length) (hs : run t ops = .ok t') (k : Key)
    (hk : k ∉ stored_keys t) (hops : ∀ v, Op.add_or_update k v ∉ ops) :
    k ∉ stored_keys t' := by
  induction ops generalizing t with
  | nil =>
    simp only [run, Except.ok.injEq] at hs
    rw [← hs]
    exact hk
  | cons op ops ih =>
    simp only [run] at hs
    cases hstep : step t op with
    | error e =>
      rw [hstep] at hs
      cases hs
    | ok t1 =>
      rw [hstep] at hs
      have hl : t1.buckets.length = t.buckets.length := by
        cases op with
        | add_or_update k1 v =>
          obtain ⟨b, _, e⟩ := t.add_or_update_ok k1 v hn
          simp only [step] at hstep
          rw [e] at hstep
          cases hstep
          simp
        | remove k1 =>
          obtain ⟨b, _, e⟩ := t.remove_ok k1 hn
          simp only [step] at hstep
          rw [e] at hstep
          cases hstep
          simp
      apply ih t1 (by omega) hs
      · intro hk1
        rcases step_stored t t1 op hn hstep k hk1 with h | ⟨v, h⟩
        · exact hk h
        · exact hops v (by rw [h]; exact List.mem_cons_self _ _)
      · intro v hv
        exact hops v (List.mem_cons_of_mem _ hv)

open threadsafe_lookup_table

variable {Key Value : Type} [DecidableEq Key]

/-! ## The claims -/

theorem sample_table_reachable : Reachable sample_table :=
  ⟨2, sample_hash, sample_ops, by decide, _, rfl, rfl⟩

theorem sample_table_reachedBy : ReachedBy 2 sample_hash sample_ops sample_table :=
  ⟨_, rfl, rfl⟩

/-- C1, read-after-write: in every state reachable from a table constructed with a positive
    number of buckets, `add_or_update(k, v)` returns, and `value_for(k, fb)` evaluated right
    after it returns `v`, for every key `k`, value `v` and fallback `fb`. -/
theorem C1_read_after_write (t : threadsafe_lookup_table Key Value) (k : Key) (v fb : Value)
    (h : Reachable t) :
    ∃ t', t.add_or_update k v = .ok t' ∧ t'.value_for k fb = .ok v := by
  obtain ⟨hn, _, _⟩ := reachable_invariant t h
  obtain ⟨b, _, e⟩ := t.add_or_update_ok k v hn
  refine ⟨_, e, ?_⟩
  rw [value_for_set t k fb _ hn, bucket_type.value_for_add_or_update_same]

theorem C1_read_after_write_witness :
    Reachable sample_table ∧
      ∃ t', sample_table.add_or_update 3 33 = .ok t' ∧ t'.value_for 3 0 = .ok 33 :=
  ⟨sample_table_reachable,
    C1_read_after_write sample_table 3 33 0
      sample_table_reachable⟩

/-- C2, miss after removal: in every state reachable from a table constructed with a positive
    number of buckets, `remove(k)` returns, and `value_for(k, fb)` evaluated right after it
    returns exactly `fb`, for every key `k` and fallback `fb`. -/
theorem C2_miss_after_remove (t : threadsafe_lookup_table Key Value) (k : Key) (fb : Value)
    (h : Reachable t) :
    ∃ t', t.remove k = .ok t' ∧ t'.value_for k fb = .ok fb := by
  obtain ⟨hn, _, hu⟩ := reachable_invariant t h
  obtain ⟨b, hb, e⟩ := t.remove_ok k hn
  refine ⟨_, e, ?_⟩
  rw [value_for_set t k fb _ hn,
    bucket_type.value_for_remove_same b k fb (unique_bucket t _ b hu hb)]

theorem C2_miss_after_remove_witness :
    Reachable sample_table ∧
      ∃ t', sample_table.remove 1 = .ok t' ∧ t'.value_for 1 7 = .ok 7 :=
  ⟨sample_table_reachable,
    C2_miss_after_remove sample_table 1 7
      sample_table_reachable⟩

/-- C3, miss on a never-inserted key: when `t` is reached from a table constructed with
    `n > 0` buckets by a sequence of `add_or_update`/`remove` calls none of which is an
    `add_or_update` of key `k`, `value_for(k, fb)` returns exactly `fb` for every `fb`. -/
theorem C3_miss_never_inserted (n : Nat) (hasher : Key → Nat) (ops : List (Op Key Value))
    (t : threadsafe_lookup_table Key Value) (k : Key) (fb : Value) (hn : 0 < n)
    (hr : ReachedBy n hasher ops t) (hops : ∀ v, Op.add_or_update k v ∉ ops) :
    t.value_for k fb = .ok fb := by
  obtain ⟨hl, _, _, _⟩ := reachedBy_invariant n hasher ops t hn hr
  obtain ⟨t0, h0, hrun⟩ := hr
  have e0 := construct_eq n hasher t0 h0
  subst e0
  have hk : k ∉ stored_keys t := by
    apply run_not_stored ops _ t (by simpa using hn) hrun k _ hops
    rw [stored_keys_construct]
    exact List.not_mem_nil k
  obtain ⟨b, hb, e⟩ := t.value_for_ok k fb (by omega)
  rw [e, bucket_type.value_for_of_not_mem b k fb]
  intro hkb
  exact hk ((mem_stored_keys t k).2 ⟨_, b, hb, hkb⟩)

theorem C3_miss_never_inserted_witness :
    0 < 2 ∧ ReachedBy 2 sample_hash sample_ops sample_table ∧
      (∀ v, Op.add_or_update 4 v ∉ sample_ops) ∧ sample_table.value_for 4 7 = .ok 7 :=
  ⟨by decide, sample_table_reachedBy, by intro v; simp [sample_ops],
    C3_miss_never_inserted 2 sample_hash sample_ops sample_table 4 7 (by decide)
      sample_table_reachedBy (by intro v; simp [sample_ops])⟩

/-- C5 as stated fails: constructing a table of `int` keys and `string` values with 0
    buckets does not return an error; it returns a table, and `value_for(1, "x")` on that
    table reaches the remainder by zero. -/
theorem C5_zero_buckets_not_rejected :
    (¬ ∃ e, (construct 0 std_hash_int : Except Fault (threadsafe_lookup_table Int String))
        = .error e) ∧
      ∃ t : threadsafe_lookup_table Int String,
        construct 0 std_hash_int = .ok t ∧ t.value_for 1 "x" = .error .modulo_by_zero :=
  ⟨fun h => h.elim (fun _ he => Except.noConfusion he), _, rfl, rfl⟩

/-- C5 amended: constructing a table with 0 buckets succeeds and returns the table with no
    bucket; construction does not prevent the routing computation `hash(key) mod 0`, which
    every `get_bucket`, and with it `value_for`, `add_or_update` and `remove`, then reaches
    (the fault of the model). -/
theorem C5_zero_buckets_constructed (hasher : Key → Nat) :
    (construct 0 hasher : Except Fault (threadsafe_lookup_table Key Value))
        = .ok { buckets := [], hash_ := hasher } ∧
      ∀ (k : Key) (v : Value),
        get_bucket ({ buckets := [], hash_ := hasher } : threadsafe_lookup_table Key Value) k
            = .error .modulo_by_zero ∧
          value_for ({ buckets := [], hash_ := hasher } : threadsafe_lookup_table Key Value)
            k v = .error .modulo_by_zero ∧
          add_or_update ({ buckets := [], hash_ := hasher } : threadsafe_lookup_table Key Value)
            k v = .error .modulo_by_zero ∧
          remove ({ buckets := [], hash_ := hasher } : threadsafe_lookup_table Key Value) k
            = .error .modulo_by_zero :=
  ⟨rfl, fun _ _ => ⟨rfl, rfl, rfl, rfl⟩⟩

/-- C6, uniqueness invariant: a newly constructed table satisfies uniqueness (every key
    occurs in at most one entry across all buckets), and `add_or_update` and `remove`
    applied to a table that satisfies it (a state reachable from a newly constructed table
    with a positive number of buckets) return a table that satisfies it; so every such
    state satisfies it. -/
theorem C6_uniqueness_invariant :
    (∀ (n : Nat) (hasher : Key → Nat),
        ∃ t : threadsafe_lookup_table Key Value, construct n hasher = .ok t ∧ Unique t) ∧
      (∀ (t : threadsafe_lookup_table Key Value) (k : Key) (v : Value),
        Reachable t → Unique t → ∃ t', t.add_or_update k v = .ok t' ∧ Unique t') ∧
      (∀ (t : threadsafe_lookup_table Key Value) (k : Key),
        Reachable t → Unique t → ∃ t', t.remove k = .ok t' ∧ Unique t') ∧
      (∀ t : threadsafe_lookup_table Key Value, Reachable t → Unique t) := by
  refine ⟨?_, ?_, ?_, ?_⟩
  · intro n hasher
    refine ⟨_, rfl, ?_⟩
    unfold Unique
    rw [stored_keys_construct]
    exact List.nodup_nil
  · intro t k v h hu
    obtain ⟨hn, hr, _⟩ := reachable_invariant t h
    exact add_or_update_unique t k v hn hr hu
  · intro t k h hu
    exact remove_unique t k (reachable_invariant t h).1 hu
  · intro t h
    exact (reachable_invariant t h).2.2

theorem C6_uniqueness_invariant_witness :
    (Reachable sample_table ∧ Unique sample_table) ∧
      (∃ t', sample_table.add_or_update 4 40 = .ok t' ∧ Unique t') ∧
      (∃ t', sample_table.remove 1 = .ok t' ∧ Unique t') ∧
      Unique sample_table :=
  ⟨⟨sample_table_reachable, by decide⟩,
    C6_uniqueness_invariant.2.1 sample_table 4 40 sample_table_reachable (by decide),
    C6_uniqueness_invariant.2.2.1 sample_table 1 sample_table_reachable (by decide),
    C6_uniqueness_invariant.2.2.2 sample_table sample_table_reachable⟩

/-- C7, routing invariant: in every state reachable from a table constructed with `n > 0`
    buckets, every entry stored in bucket `i` has a key `K` with `hash(K) mod n = i`. -/
theorem C7_routing_invariant (t : threadsafe_lookup_table Key Value) (h : Reachable t)
    (i : Nat) (b : bucket_type Key Value) (hb : t.buckets[i]? = some b) (e : Key × Value)
    (he : e ∈ b.data) : t.hash_ e.1 % t.buckets.length = i :=
  (reachable_invariant t h).2.1 (i, b) (List.mem_enum_iff_getElem?.2 hb) e he

theorem C7_routing_invariant_witness :
    Reachable sample_table ∧ sample_table.buckets[1]? = some { data := [(1, 10), (3, 30)] } ∧
      (3, 30) ∈ [(1, 10), (3, 30)] ∧
      sample_table.hash_ (3, 30).1 % sample_table.buckets.length = 1 :=
  ⟨sample_table_reachable, rfl, by decide,
    C7_routing_invariant sample_table sample_table_reachable
      1 { data := [(1, 10), (3, 30)] } rfl (3, 30) (by decide)⟩

/-- C8, remove is idempotent: for every table state with a positive number of buckets that
    satisfies uniqueness and every key `k`, `remove(k)` returns a state on which a second
    `remove(k)` returns that same state. -/
theorem C8_remove_idempotent (t : threadsafe_lookup_table Key Value) (k : Key)
    (hn : 0 < t.buckets.length) (hu : Unique t) :
    ∃ t1, t.remove k = .ok t1 ∧ t1.remove k = .ok t1 := by
  obtain ⟨b, hb, e⟩ := t.remove_ok k hn
  refine ⟨_, e, ?_⟩
  have hi : t.hash_ k % t.buckets.length < t.buckets.length := Nat.mod_lt _ hn
  obtain ⟨b1, hb1, e1⟩ := remove_ok
    { buckets := t.buckets.set (t.hash_ k % t.buckets.length) (b.remove k), hash_ := t.hash_ }
    k (by simpa using hn)
  simp only [List.length_set] at hb1 e1
  rw [List.getElem?_set] at hb1
  simp only [hi, if_true, Option.some.injEq] at hb1
  subst hb1
  rw [e1, List.set_set,
    bucket_type.remove_of_not_mem (b.remove k) k
      (bucket_type.not_mem_keys_remove b k (unique_bucket t _ b hu hb))]

theorem C8_remove_idempotent_witness :
    0 < sample_table.buckets.length ∧ Unique sample_table ∧
      ∃ t1, sample_table.remove 1 = .ok t1 ∧ t1.remove 1 = .ok t1 :=
  ⟨by decide, by decide, C8_remove_idempotent sample_table 1 (by decide) (by decide)⟩

/-- C9, removing an absent key is a no-op: for every table state with a positive number of
    buckets and every key `k` that is not stored in the table, `remove(k)` returns, and the
    state it returns is the state it was applied to. -/
theorem C9_remove_absent (t : threadsafe_lookup_table Key Value) (k : Key)
    (hn : 0 < t.buckets.length) (hk : ¬ Stored t k) : t.remove k = .ok t := by
  obtain ⟨b, hb, e⟩ := t.remove_ok k hn
  have hkb : k ∉ b.keys := fun c => hk ((mem_stored_keys t k).2 ⟨_, b, hb, c⟩)
  rw [e, bucket_type.remove_of_not_mem b k hkb, set_of_getElem? _ _ _ hb]

theorem C9_remove_absent_witness :
    0 < sample_table.buckets.length ∧ ¬ Stored sample_table 4 ∧
      sample_table.remove 4 = .ok sample_table :=
  ⟨by decide, by decide, C9_remove_absent sample_table 4 (by decide) (by decide)⟩

/-- C10, the concrete scenario up to the snapshot: with `int` keys, `string` values, the
    identity integer hash and 19 buckets, after `add_or_update(1, "hello")` and
    `add_or_update(2, "world")`, `value_for(1, "x")` is `"hello"` and `value_for(3, "x")` is
    `"x"`; after `remove(1)`, `value_for(1, "x")` is `"x"`, and the table then holds the one
    entry `(2, "world")`. The call `get_map()` that ends the scenario cannot be
    instantiated, so there is no snapshot to state. -/
theorem C10_scenario :
    ∃ t0 t1 t2 t3 : threadsafe_lookup_table Int String,
      construct 19 std_hash_int = .ok t0 ∧
      t0.add_or_update 1 "hello" = .ok t1 ∧
      t1.add_or_update 2 "world" = .ok t2 ∧
      t2.value_for 1 "x" = .ok "hello" ∧
      t2.value_for 3 "x" = .ok "x" ∧
      t2.remove 1 = .ok t3 ∧
      t3.value_for 1 "x" = .ok "x" ∧
      all_entries t3 = [(2, "world")] :=
  ⟨_, _, _, _, rfl, rfl, rfl, rfl, rfl, rfl, rfl, rfl⟩

/-! ## The search `for_entry_key` and the entry a mutation touches -/

section search

variable {Key Value : Type} [DecidableEq Key]

theorem find_if_le {α : Type} (p : α → Bool) (l : List α) : find_if p l ≤ l.length := by
  induction l with
  | nil => simp [find_if]
  | cons x xs ih =>
    simp only [find_if, List.length_cons]
    split <;> omega

theorem find_if_eq_length_iff {α : Type} (p : α → Bool) (l : List α) :
    find_if p l = l.length ↔ ∀ x ∈ l, p x = false := by
  induction l with
  | nil => simp [find_if]
  | cons x xs ih =>
    simp only [find_if, List.length_cons, List.mem_cons, forall_eq_or_imp]
    cases hx : p x with
    | true => simp
    | false => simpa using ih

theorem find_if_found {α : Type} (p : α → Bool) (l : List α)
    (h : find_if p l < l.length) : ∃ e, l[find_if p l]? = some e ∧ p e = true := by
  induction l with
  | nil => simp [find_if] at h
  | cons x xs ih =>
    simp only [find_if, List.length_cons] at h ⊢
    cases hx : p x with
    | true =>
      simp only [if_true, List.getElem?_cons_zero]
      exact ⟨x, rfl, hx⟩
    | false =>
      rw [hx] at h
      simp only [Bool.false_eq_true, if_false, List.getElem?_cons_succ] at h ⊢
      exact ih (by omega)

theorem find_if_first {α : Type} (p : α → Bool) (l : List α) (j : Nat) (e : α)
    (hj : j < find_if p l) (he : l[j]? = some e) : p e = false := by
  induction l generalizing j with
  | nil => simp at he
  | cons x xs ih =>
    simp only [find_if] at hj
    cases hx : p x with
    | true =>
      rw [hx] at hj
      simp at hj
    | false =>
      rw [hx] at hj
      simp only [Bool.false_eq_true, if_false] at hj
      cases j with
      | zero =>
        simp only [List.getElem?_cons_zero, Option.some.injEq] at he
        rw [← he]
        exact hx
      | succ i =>
        simp only [List.getElem?_cons_succ] at he
        exact ih i (by omega) he

theorem for_entry_key_eq_length_iff (b : bucket_type Key Value) (k : Key) :
    b.for_entry_key k = b.data.length ↔ k ∉ b.keys := by
  unfold bucket_type.for_entry_key bucket_type.keys
  rw [find_if_eq_length_iff]
  simp only [decide_eq_false_iff_not, List.mem_map, not_exists, not_and]

theorem for_entry_key_lt_iff (b : bucket_type Key Value) (k : Key) :
    b.for_entry_key k < b.data.length ↔ k ∈ b.keys := by
  have h1 := for_entry_key_eq_length_iff b k
  have h2 : b.for_entry_key k ≤ b.data.length := find_if_le _ _
  constructor
  · intro h
    by_contra hk
    have := h1.2 hk
    omega
  · intro hk
    have : b.for_entry_key k ≠ b.data.length := fun c => (h1.1 c) hk
    omega

/-- The data of a bucket after `add_or_update`: the entry at the position found is set to
    `(k, v)` when the key is there, and `(k, v)` is appended when it is not. -/
theorem add_or_update_data (b : bucket_type Key Value) (k : Key) (v : Value) :
    (b.add_or_update k v).data
      = if k ∈ b.keys then b.data.set (b.for_entry_key k) (k, v)
        else b.data ++ [(k, v)] := by
  by_cases hk : k ∈ b.keys
  · have hlt := (for_entry_key_lt_iff b k).2 hk
    obtain ⟨e, he, hp⟩ := find_if_found (fun x : Key × Value => decide (x.1 = k)) b.data hlt
    have hne : b.for_entry_key k ≠ b.data.length := by omega
    have he' : b.data[b.for_entry_key k]? = some e := he
    simp only [decide_eq_true_eq] at hp
    simp only [bucket_type.add_or_update, hne, if_false, hk, if_true]
    rw [List.modify_eq_set_get?, List.get?_eq_getElem?, he']
    simp [hp]
  · have he := (for_entry_key_eq_length_iff b k).2 hk
    simp [bucket_type.add_or_update, he, hk]

theorem value_for_add_or_update_other (b : bucket_type Key Value) (k k' : Key) (v d : Value)
    (h : k' ≠ k) : (b.add_or_update k v).value_for k' d = b.value_for k' d := by
  obtain ⟨l⟩ := b
  induction l with
  | nil =>
    rw [bucket_type.add_or_update_nil, bucket_type.value_for_cons, bucket_type.value_for_nil,
      if_neg (fun c => h c.symm)]
  | cons e xs ih =>
    obtain ⟨a, x⟩ := e
    rw [bucket_type.add_or_update_cons]
    by_cases ha : a = k
    · subst ha
      simp only [if_true, bucket_type.value_for_cons]
      rw [if_neg (fun c : a = k' => h c.symm), if_neg (fun c : a = k' => h c.symm)]
    · simp only [ha, if_false, bucket_type.value_for_cons]
      rw [ih]

theorem value_for_remove_other (b : bucket_type Key Value) (k k' : Key) (d : Value)
    (h : k' ≠ k) : (b.remove k).value_for k' d = b.value_for k' d := by
  obtain ⟨l⟩ := b
  induction l with
  | nil => rw [bucket_type.remove_nil]
  | cons e xs ih =>
    obtain ⟨a, x⟩ := e
    rw [bucket_type.remove_cons]
    by_cases ha : a = k
    · subst ha
      simp only [if_true, bucket_type.value_for_cons]
      rw [if_neg (fun c : a = k' => h c.symm)]
    · simp only [ha, if_false, bucket_type.value_for_cons]
      rw [ih]

theorem remove_add_or_update (b : bucket_type Key Value) (k : Key) (v : Value)
    (h : k ∉ b.keys) : (b.add_or_update k v).remove k = b := by
  obtain ⟨l⟩ := b
  induction l with
  | nil => simp [bucket_type.add_or_update_nil, bucket_type.remove_cons]
  | cons e xs ih =>
    obtain ⟨a, x⟩ := e
    simp only [bucket_type.keys, List.map_cons, List.mem_cons, not_or] at h ih
    have ha : ¬ a = k := fun c => h.1 c.symm
    rw [bucket_type.add_or_update_cons, if_neg ha, bucket_type.remove_cons, if_neg ha,
      ih h.2]

end search

/-! ## Mutations act on one bucket -/

section locality

variable {Key Value : Type} [DecidableEq Key]

/-- A mutation replaces the bucket its key is routed to by a bucket that depends on the old
    content of that bucket only, and it does the same on every table with the same hash,
    the same number of buckets and the same content at that index. -/
theorem step_local (t : threadsafe_lookup_table Key Value) (op : Op Key Value)
    (hn : 0 < t.buckets.length) :
    ∃ b' : bucket_type Key Value,
      ∀ bs : List (bucket_type Key Value), bs.length = t.buckets.length →
        bs[t.hash_ op.key % t.buckets.length]?
            = t.buckets[t.hash_ op.key % t.buckets.length]? →
          step { buckets := bs, hash_ := t.hash_ } op
            = .ok { buckets := bs.set (t.hash_ op.key % t.buckets.length) b',
                    hash_ := t.hash_ } := by
  cases op with
  | add_or_update k v =>
    obtain ⟨b, hb, _⟩ := t.add_or_update_ok k v hn
    refine ⟨b.add_or_update k v, fun bs hl hbs => ?_⟩
    obtain ⟨c, hc, e⟩ := threadsafe_lookup_table.add_or_update_ok
      { buckets := bs, hash_ := t.hash_ } k v (by simpa [hl] using hn)
    simp only [hl] at hc e
    simp only [Op.key] at hbs ⊢
    rw [hbs, hb] at hc
    cases hc
    simpa [step] using e
  | remove k =>
    obtain ⟨b, hb, _⟩ := t.remove_ok k hn
    refine ⟨b.remove k, fun bs hl hbs => ?_⟩
    obtain ⟨c, hc, e⟩ := threadsafe_lookup_table.remove_ok
      { buckets := bs, hash_ := t.hash_ } k (by simpa [hl] using hn)
    simp only [hl] at hc e
    simp only [Op.key] at hbs ⊢
    rw [hbs, hb] at hc
    cases hc
    simpa [step] using e

theorem getElem?_set_other {α : Type} (l : List α) (i j : Nat) (a : α) (h : j ≠ i) :
    (l.set i a)[j]? = l[j]? := by
  rw [List.getElem?_set, if_neg (fun c => h c.symm)]

end locality

/-! ## The claims on construction, frames and algebra -/

section claims

variable {Key Value : Type} [DecidableEq Key]

/-- C12, construction without the snapshot: for every `n > 0` the constructor called with
    `n` returns a table with exactly `n` buckets, all of them empty, which stores no entry
    and on which every `value_for` returns its fallback; called without a bucket count it
    returns a table with exactly 19 buckets. The claim's `get_map()` cannot be instantiated,
    so its result is not stated. -/
theorem C12_construction (n : Nat) (hasher : Key → Nat) (hn : 0 < n) :
    (∃ t : threadsafe_lookup_table Key Value, construct n hasher = .ok t ∧
        t.buckets.length = n ∧ (∀ b ∈ t.buckets, b.data = []) ∧ stored_keys t = [] ∧
        ∀ (k : Key) (fb : Value), t.value_for k fb = .ok fb) ∧
      ∃ t : threadsafe_lookup_table Key Value, construct_default hasher = .ok t ∧
        t.buckets.length = 19 := by
  refine ⟨⟨_, rfl, by simp, ?_, ?_, ?_⟩, _, rfl, by simp⟩
  · intro b hb
    rw [(List.mem_replicate.1 hb).2]
  · exact stored_keys_construct n hasher
  · intro k fb
    obtain ⟨b, hb, e⟩ := value_for_ok
      ({ buckets := List.replicate n { data := [] }, hash_ := hasher } :
        threadsafe_lookup_table Key Value) k fb (by simpa using hn)
    have hm : b ∈ List.replicate n ({ data := [] } : bucket_type Key Value) :=
      List.mem_iff_getElem?.2 ⟨_, hb⟩
    rw [e, (List.mem_replicate.1 hm).2, bucket_type.value_for_nil]

theorem C12_construction_witness :
    0 < 3 ∧
      ((∃ t : threadsafe_lookup_table Nat Nat, construct 3 sample_hash = .ok t ∧
          t.buckets.length = 3 ∧ (∀ b ∈ t.buckets, b.data = []) ∧ stored_keys t = [] ∧
          ∀ (k : Nat) (fb : Nat), t.value_for k fb = .ok fb) ∧
        ∃ t : threadsafe_lookup_table Nat Nat, construct_default sample_hash = .ok t ∧
          t.buckets.length = 19) :=
  ⟨by decide, C12_construction 3 sample_hash (by decide)⟩

/-- C13, the shard count is immutable: on a table with a positive number of buckets
    `add_or_update` and `remove` return a table with the same number of buckets, and every
    state reached from a table constructed with `n > 0` buckets has `n` buckets.
    (`value_for` and `get_map` are `const` members: they return a value and no new state.) -/
theorem C13_bucket_count_immutable :
    (∀ (t : threadsafe_lookup_table Key Value) (k : Key) (v : Value),
        0 < t.buckets.length →
          ∃ t', t.add_or_update k v = .ok t' ∧ t'.buckets.length = t.buckets.length) ∧
      (∀ (t : threadsafe_lookup_table Key Value) (k : Key),
        0 < t.buckets.length →
          ∃ t', t.remove k = .ok t' ∧ t'.buckets.length = t.buckets.length) ∧
      (∀ (n : Nat) (hasher : Key → Nat) (ops : List (Op Key Value))
        (t : threadsafe_lookup_table Key Value),
        0 < n → ReachedBy n hasher ops t → t.buckets.length = n) := by
  refine ⟨?_, ?_, ?_⟩
  · intro t k v hn
    obtain ⟨b, _, e⟩ := t.add_or_update_ok k v hn
    exact ⟨_, e, by simp⟩
  · intro t k hn
    obtain ⟨b, _, e⟩ := t.remove_ok k hn
    exact ⟨_, e, by simp⟩
  · intro n hasher ops t hn hr
    exact (reachedBy_invariant n hasher ops t hn hr).1

theorem C13_bucket_count_immutable_witness :
    (0 < sample_table.buckets.length ∧ 0 < 2 ∧
        ReachedBy 2 sample_hash sample_ops sample_table) ∧
      (∃ t', sample_table.add_or_update 4 40 = .ok t' ∧
        t'.buckets.length = sample_table.buckets.length) ∧
      (∃ t', sample_table.remove 1 = .ok t' ∧
        t'.buckets.length = sample_table.buckets.length) ∧
      sample_table.buckets.length = 2 :=
  ⟨⟨by decide, by decide, sample_table_reachedBy⟩,
    C13_bucket_count_immutable.1 sample_table 4 40 (by decide),
    C13_bucket_count_immutable.2.1 sample_table 1 (by decide),
    C13_bucket_count_immutable.2.2 2 sample_hash sample_ops sample_table (by decide)
      sample_table_reachedBy⟩

/-- C15, bucket upsert: when the bucket has an entry with key `k`, `for_entry_key` finds the
    first such entry, and `add_or_update(k, v)` keeps the length of the list, makes the entry
    at that position `(k, v)` and keeps every entry at another position; when there is no
    such entry, it yields the old list with the single entry `(k, v)` appended at the end. -/
theorem C15_bucket_upsert (b : bucket_type Key Value) (k : Key) (v : Value) :
    (k ∈ b.keys →
        b.for_entry_key k < b.data.length ∧
        (∃ x, b.data[b.for_entry_key k]? = some (k, x)) ∧
        (∀ (j : Nat) (e : Key × Value), j < b.for_entry_key k → b.data[j]? = some e →
          e.1 ≠ k) ∧
        (b.add_or_update k v).data.length = b.data.length ∧
        (b.add_or_update k v).data[b.for_entry_key k]? = some (k, v) ∧
        ∀ j : Nat, j ≠ b.for_entry_key k →
          (b.add_or_update k v).data[j]? = b.data[j]?) ∧
      (k ∉ b.keys → (b.add_or_update k v).data = b.data ++ [(k, v)]) := by
  constructor
  · intro hk
    have hlt := (for_entry_key_lt_iff b k).2 hk
    obtain ⟨e, he, hp⟩ := find_if_found (fun x : Key × Value => decide (x.1 = k)) b.data hlt
    have he' : b.data[b.for_entry_key k]? = some e := he
    simp only [decide_eq_true_eq] at hp
    rw [add_or_update_data, if_pos hk]
    refine ⟨hlt, ⟨e.2, ?_⟩, ?_, by simp, ?_, ?_⟩
    · rw [he', ← hp]
    · intro j e' hj he'' hc
      have := find_if_first (fun x : Key × Value => decide (x.1 = k)) b.data j e' hj he''
      simp only [decide_eq_false_iff_not] at this
      exact this hc
    · rw [List.getElem?_set]
      simp [hlt]
    · intro j hj
      exact getElem?_set_other _ _ _ _ hj
  · intro hk
    rw [add_or_update_data, if_neg hk]

theorem C15_bucket_upsert_witness :
    (3 ∈ (bucket_type.mk [(1, 10), (3, 30)]).keys ∧
        4 ∉ (bucket_type.mk [(1, 10), (3, 30)]).keys) ∧
      ((bucket_type.mk [(1, 10), (3, 30)]).add_or_update 3 33).data[1]? = some (3, 33) ∧
      ((bucket_type.mk [(1, 10), (3, 30)]).add_or_update 4 40).data
        = [(1, 10), (3, 30)] ++ [(4, 40)] :=
  ⟨⟨by decide, by decide⟩,
    ((C15_bucket_upsert (bucket_type.mk [(1, 10), (3, 30)]) 3 33).1 (by decide)).2.2.2.2.1,
    (C15_bucket_upsert (bucket_type.mk [(1, 10), (3, 30)]) 4 40).2 (by decide)⟩

/-- C16, only the routed bucket changes: on a table with `n > 0` buckets, `add_or_update(k,
    v)` and `remove(k)` return a table in which every bucket whose index differs from
    `hash(k) mod n` is the bucket it was. -/
theorem C16_other_buckets_unchanged (t : threadsafe_lookup_table Key Value) (k : Key)
    (v : Value) (hn : 0 < t.buckets.length) :
    (∃ t', t.add_or_update k v = .ok t' ∧
        ∀ j : Nat, j ≠ t.hash_ k % t.buckets.length → t'.buckets[j]? = t.buckets[j]?) ∧
      ∃ t', t.remove k = .ok t' ∧
        ∀ j : Nat, j ≠ t.hash_ k % t.buckets.length → t'.buckets[j]? = t.buckets[j]? := by
  obtain ⟨b, _, e⟩ := t.add_or_update_ok k v hn
  obtain ⟨c, _, e'⟩ := t.remove_ok k hn
  exact ⟨⟨_, e, fun j hj => getElem?_set_other _ _ _ _ hj⟩,
    ⟨_, e', fun j hj => getElem?_set_other _ _ _ _ hj⟩⟩

theorem C16_other_buckets_unchanged_witness :
    0 < sample_table.buckets.length ∧
      ((∃ t', sample_table.add_or_update 2 22 = .ok t' ∧
          ∀ j : Nat, j ≠ sample_table.hash_ 2 % sample_table.buckets.length →
            t'.buckets[j]? = sample_table.buckets[j]?) ∧
        ∃ t', sample_table.remove 2 = .ok t' ∧
          ∀ j : Nat, j ≠ sample_table.hash_ 2 % sample_table.buckets.length →
            t'.buckets[j]? = sample_table.buckets[j]?) :=
  ⟨by decide, C16_other_buckets_unchanged sample_table 2 22 (by decide)⟩

/-- A lookup of `k2` in the table that `t` becomes when the bucket at index `i` is replaced
    by `c`, where `c` answers the lookup of `k2` as the old bucket at `i` did. -/
theorem value_for_set_frame (t : threadsafe_lookup_table Key Value) (i : Nat)
    (b c : bucket_type Key Value) (k2 : Key) (fb : Value) (hn : 0 < t.buckets.length)
    (hb : t.buckets[i]? = some b) (hc : c.value_for k2 fb = b.value_for k2 fb) :
    value_for { buckets := t.buckets.set i c, hash_ := t.hash_ } k2 fb
      = t.value_for k2 fb := by
  obtain ⟨b1, hb1, e1⟩ := t.value_for_ok k2 fb hn
  obtain ⟨b2, hb2, e2⟩ := value_for_ok
    { buckets := t.buckets.set i c, hash_ := t.hash_ } k2 fb (by simpa using hn)
  simp only [List.length_set] at hb2 e2
  rw [e1, e2]
  by_cases hi : t.hash_ k2 % t.buckets.length = i
  · rw [hi] at hb1 hb2
    have hlt : i < t.buckets.length := by
      rw [← hi]
      exact Nat.mod_lt _ hn
    rw [List.getElem?_set] at hb2
    simp only [hlt, if_true, Option.some.injEq] at hb2
    rw [hb] at hb1
    cases hb1
    rw [← hb2, hc]
  · rw [getElem?_set_other _ _ _ _ hi, hb1] at hb2
    cases hb2
    rfl

/-- C17, other keys are unaffected: on a table with a positive number of buckets, for keys
    `k2 ≠ k`, `value_for(k2, fb)` returns the same result before and after
    `add_or_update(k, v)`, and the same result before and after `remove(k)`, whether or not
    the two keys are routed to the same bucket. -/
theorem C17_other_keys_unaffected (t : threadsafe_lookup_table Key Value) (k k2 : Key)
    (v fb : Value) (hn : 0 < t.buckets.length) (hne : k2 ≠ k) :
    (∃ t', t.add_or_update k v = .ok t' ∧ t'.value_for k2 fb = t.value_for k2 fb) ∧
      ∃ t', t.remove k = .ok t' ∧ t'.value_for k2 fb = t.value_for k2 fb := by
  obtain ⟨b, hb, e⟩ := t.add_or_update_ok k v hn
  obtain ⟨c, hc, e'⟩ := t.remove_ok k hn
  refine ⟨⟨_, e, ?_⟩, ⟨_, e', ?_⟩⟩
  · exact value_for_set_frame t _ b _ k2 fb hn hb
      (value_for_add_or_update_other b k k2 v fb hne)
  · exact value_for_set_frame t _ c _ k2 fb hn hc (value_for_remove_other c k k2 fb hne)

theorem C17_other_keys_unaffected_witness :
    (0 < sample_table.buckets.length ∧ (3 : Nat) ≠ 1) ∧
      ((∃ t', sample_table.add_or_update 1 11 = .ok t' ∧
          t'.value_for 3 0 = sample_table.value_for 3 0) ∧
        ∃ t', sample_table.remove 1 = .ok t' ∧
          t'.value_for 3 0 = sample_table.value_for 3 0) :=
  ⟨⟨by decide, by decide⟩,
    C17_other_keys_unaffected sample_table 1 3 11 0 (by decide) (by decide)⟩

/-- C19, insert-then-remove round trip: on a table with a positive number of buckets and for
    a key `k` that is not stored in it, `add_or_update(k, v)` returns a state on which
    `remove(k)` returns the original state, for every value `v`. -/
theorem C19_insert_remove_roundtrip (t : threadsafe_lookup_table Key Value) (k : Key)
    (v : Value) (hn : 0 < t.buckets.length) (hk : ¬ Stored t k) :
    ∃ t1, t.add_or_update k v = .ok t1 ∧ t1.remove k = .ok t := by
  obtain ⟨b, hb, e⟩ := t.add_or_update_ok k v hn
  refine ⟨_, e, ?_⟩
  have hkb : k ∉ b.keys := fun c => hk ((mem_stored_keys t k).2 ⟨_, b, hb, c⟩)
  have hi : t.hash_ k % t.buckets.length < t.buckets.length := Nat.mod_lt _ hn
  obtain ⟨b1, hb1, e1⟩ := remove_ok
    { buckets := t.buckets.set (t.hash_ k % t.buckets.length) (b.add_or_update k v),
      hash_ := t.hash_ } k (by simpa using hn)
  simp only [List.length_set] at hb1 e1
  rw [List.getElem?_set] at hb1
  simp only [hi, if_true, Option.some.injEq] at hb1
  subst hb1
  rw [e1, List.set_set, remove_add_or_update b k v hkb, set_of_getElem? _ _ _ hb]

theorem C19_insert_remove_roundtrip_witness :
    (0 < sample_table.buckets.length ∧ ¬ Stored sample_table 4) ∧
      ∃ t1, sample_table.add_or_update 4 40 = .ok t1 ∧ t1.remove 4 = .ok sample_table :=
  ⟨⟨by decide, by decide⟩,
    C19_insert_remove_roundtrip sample_table 4 40 (by decide) (by decide)⟩

/-- C20, mutations on different buckets commute: on a table with `n > 0` buckets, for two
    mutations (each an `add_or_update` or a `remove`) whose keys are routed to different
    buckets, applying them in either order returns the same table state. -/
theorem C20_different_buckets_commute (t : threadsafe_lookup_table Key Value)
    (op1 op2 : Op Key Value) (hn : 0 < t.buckets.length)
    (hne : t.hash_ op1.key % t.buckets.length ≠ t.hash_ op2.key % t.buckets.length) :
    ∃ t1 t2 t', step t op1 = .ok t1 ∧ step t1 op2 = .ok t' ∧
      step t op2 = .ok t2 ∧ step t2 op1 = .ok t' := by
  obtain ⟨b1, h1⟩ := step_local t op1 hn
  obtain ⟨b2, h2⟩ := step_local t op2 hn
  refine ⟨{ buckets := t.buckets.set (t.hash_ op1.key % t.buckets.length) b1,
             hash_ := t.hash_ },
    { buckets := t.buckets.set (t.hash_ op2.key % t.buckets.length) b2, hash_ := t.hash_ },
    { buckets := (t.buckets.set (t.hash_ op1.key % t.buckets.length) b1).set
        (t.hash_ op2.key % t.buckets.length) b2,
      hash_ := t.hash_ },
    h1 t.buckets rfl rfl, ?_, h2 t.buckets rfl rfl, ?_⟩
  · exact h2 _ (by simp) (getElem?_set_other _ _ _ _ (fun c => hne c.symm))
  · rw [h1 _ (by simp) (getElem?_set_other _ _ _ _ hne), List.set_comm _ _ _ (fun c => hne c.symm)]

theorem C20_different_buckets_commute_witness :
    (0 < sample_table.buckets.length ∧
        sample_table.hash_ (Op.add_or_update 1 11 : Op Nat Nat).key
            % sample_table.buckets.length
          ≠ sample_table.hash_ (Op.remove 2 : Op Nat Nat).key
            % sample_table.buckets.length) ∧
      ∃ t1 t2 t', step sample_table (.add_or_update 1 11) = .ok t1 ∧
        step t1 (.remove 2) = .ok t' ∧
        step sample_table (.remove 2) = .ok t2 ∧ step t2 (.add_or_update 1 11) = .ok t' :=
  ⟨⟨by decide, by decide⟩,
    C20_different_buckets_commute sample_table (.add_or_update 1 11) (.remove 2)
      (by decide) (by decide)⟩

end claims

end TLT
